import Mathlib

/-!
# Verification of the libcron cron-expression parser and scheduler

Shallow embedding of the libcron sources:

* `src/libcron/CronData.h` holds the complete parsing templates
  (`process_parts`, `get_range`, `get_step`, `add_number`,
  `add_full_range`, `is_within_limits`, `validate_numeric`,
  `validate_literal`); they are embedded here definition by definition.
* The bodies of `CronData::create`/`CronData::parse`/`split`/`is_number`/
  `is_between` and the constructor name tables live in a `CronData.cpp`
  that is not part of the source tree; they are modelled from the spec
  and from the header documentation, and are marked as such.
* `CronSchedule::calculate_from` and the `Cron` task scheduler are only
  declared / exercised by tests in the source tree; they are modelled
  from the spec.

Machine integers: the C++ code uses `int` (32 bit) for `std::stoi`
results and `uint8_t` for the loop counters of the step syntax; both are
embedded as `Nat` with explicit bounds (`% 256` where the code narrows
to `uint8_t`, an explicit overflow error where `std::stoi` throws).
-/

set_option maxRecDepth 2000000

namespace Libcron

/-- Largest value `std::stoi` can return (32-bit `int`). -/
def intMax : Nat := 2147483647

/-- A field kind is its inclusive bounds `[First, Last]`
(`TimeTypes.h` enums; bounds documented in the `CronData.h` header
comment: seconds 0-59, minutes 0-59, hours 0-23, day of month 1-31,
month 1-12, day of week 0-6). -/
structure FieldKind where
  first : Nat
  last : Nat
  deriving DecidableEq

def secondsKind : FieldKind := ⟨0, 59⟩

def minutesKind : FieldKind := ⟨0, 59⟩

def hoursKind : FieldKind := ⟨0, 23⟩

def dayOfMonthKind : FieldKind := ⟨1, 31⟩

def monthsKind : FieldKind := ⟨1, 12⟩

def dayOfWeekKind : FieldKind := ⟨0, 6⟩

/-- Modelled from the spec: `CronData::is_between` is declared in
`CronData.h` but defined in the missing `CronData.cpp`; the bounds of
every field are inclusive (`[First, Last]`), so `is_between` is the
inclusive interval test its call site `is_within_limits` needs. -/
def is_between (value low_limit high_limit : Nat) : Bool :=
  decide (low_limit ≤ value) && decide (value ≤ high_limit)

/-- `CronData::is_within_limits` (CronData.h, lines 340-345). -/
def is_within_limits (k : FieldKind) (low high : Nat) : Bool :=
  is_between low k.first k.last && is_between high k.first k.last

/-- Abbreviation: a single value is within the field's limits. -/
def within (k : FieldKind) (n : Nat) : Bool :=
  is_within_limits k n n

def digitVal (c : Char) : Nat := c.toNat - 48

def digitsToNat (l : List Char) : Nat :=
  l.foldl (fun a c => a * 10 + digitVal c) 0

/-- `std::stoi` on an all-digit string: returns the denoted value, or
throws `std::out_of_range` (modelled as `.error`) when the value does
not fit in a 32-bit `int`.  Every call site in `CronData.h` passes a
nonempty all-digit string, so sign handling is not needed. -/
def stoi (l : List Char) : Except Unit Nat :=
  if digitsToNat l ≤ intMax then .ok (digitsToNat l) else .error ()

/-- Modelled from the spec: `CronData::is_number` is declared in
`CronData.h` but defined in the missing `CronData.cpp`; a token is a
plain integer exactly when it is a nonempty run of decimal digits
(spec section 4.1, "plain integer"). -/
def is_number (l : List Char) : Bool :=
  !l.isEmpty && l.all Char.isDigit

/-- Modelled from the spec: `CronData::split` is declared in
`CronData.h` but defined in the missing `CronData.cpp`; splitting is
strictly on the delimiter character without trimming (spec section 6),
so empty pieces are kept. -/
def splitChar (sep : Char) : List Char → List (List Char)
  | [] => [[]]
  | c :: rest =>
    match splitChar sep rest with
    | [] => [[]]
    | h :: t => if c = sep then [] :: h :: t else (c :: h) :: t

/-- Shape test behind the anchored regexes of `get_range` and
`get_step`: the part is exactly nonempty-digits, the separator, then
nonempty-digits. Returns the two digit groups. -/
def splitShape2 (sep : Char) (l : List Char) : Option (List Char × List Char) :=
  match l.drop (l.takeWhile Char.isDigit).length with
  | [] => none
  | c :: b =>
    if c = sep && !(l.takeWhile Char.isDigit).isEmpty && !b.isEmpty && b.all Char.isDigit then
      some (l.takeWhile Char.isDigit, b)
    else
      none

/-- `CronData::get_range` (CronData.h, lines 252-277): on a full match
of `(\d+)-(\d+)` both groups go through `std::stoi` (which may throw,
hence `Except`) and must be within the field's limits; `.ok none` means
the part is not an in-limits range. -/
def get_range (k : FieldKind) (l : List Char) : Except Unit (Option (Nat × Nat)) :=
  match splitShape2 '-' l with
  | none => .ok none
  | some (a, b) =>
    match stoi a with
    | .error e => .error e
    | .ok lo =>
      match stoi b with
      | .error e => .error e
      | .ok hi =>
        if is_within_limits k lo hi then .ok (some (lo, hi)) else .ok none

/-- `CronData::get_step` (CronData.h, lines 279-304): on a full match of
`(\d+)/(\d+)`, the raw start must be within limits and the raw step
strictly positive as a 32-bit `int`; both are then narrowed to
`uint8_t` (`% 256`). -/
def get_step (k : FieldKind) (l : List Char) : Except Unit (Option (Nat × Nat)) :=
  match splitShape2 '/' l with
  | none => .ok none
  | some (a, b) =>
    match stoi a with
    | .error e => .error e
    | .ok rawStart =>
      match stoi b with
      | .error e => .error e
      | .ok rawStep =>
        if is_within_limits k rawStart rawStart && decide (0 < rawStep) then
          .ok (some (rawStart % 256, rawStep % 256))
        else
          .ok none

/-- `CronData::add_number` (CronData.h, lines 318-338): skip (and
succeed) when the value is already present, otherwise insert it if it
is within limits and fail if it is not. -/
def add_number (k : FieldKind) (s : Finset Nat) (n : Nat) : Bool × Finset Nat :=
  if n ∈ s then (true, s)
  else if is_within_limits k n n then (true, insert n s) else (false, s)

/-- `CronData::add_full_range` (CronData.h, lines 306-316): emplace
every value from `First` to `Last` that is not yet present. -/
def add_full_range (k : FieldKind) (s : Finset Nat) : Finset Nat :=
  s ∪ (List.range' k.first (k.last + 1 - k.first)).toFinset

/-- The `res &= add_number(...)` loops of `process_parts` over an
explicit list of attempted values. -/
def add_list (k : FieldKind) : List Nat → Finset Nat → Bool × Finset Nat
  | [], s => (true, s)
  | v :: vs, s =>
    let r := add_number k s v
    let rest := add_list k vs r.2
    (r.1 && rest.1, rest.2)

/-- The step loop of `process_parts` (CronData.h, lines 235-242):
`for (auto v = step_start; v <= value_of(T::Last); v += step)` where `v`
and `step` are `uint8_t`, so the increment is modulo 256.  The loop does
not terminate when `step` is 0 (which the `uint8_t` narrowing in
`get_step` can produce from a positive raw step such as 256); it is
embedded with fuel, `none` meaning the fuel ran out.  For any step in
`[1, 255]` the iterate leaves `[0, Last]` within at most 256 steps
(the orbit of `+step` modulo 256 meets `(Last, 255]` because its
stride `gcd step 256` is at most 128 while that interval has at least
196 elements), so fuel 300 exhausts exactly when the C++ loop hangs. -/
def step_loop (k : FieldKind) : Nat → Bool → Finset Nat → Nat → Nat → Option (Bool × Finset Nat)
  | 0, _, _, _, _ => none
  | fuel + 1, res, s, v, sp =>
    if v ≤ k.last then
      let r := add_number k s v
      step_loop k fuel (res && r.1) r.2 ((v + sp) % 256) sp
    else
      some (res, s)

/-- Fuel given to the step loop; see `step_loop`. -/
def stepFuel : Nat := 300

/-- Outcome of a piece of parsing in which C++ could throw
(`std::stoi` out of range) or hang (step loop with narrowed step 0). -/
inductive PRes (α : Type) where
  | thrown : PRes α
  | hang : PRes α
  | done : α → PRes α
  deriving DecidableEq

def pbind {α β : Type} : PRes α → (α → PRes β) → PRes β
  | .thrown, _ => .thrown
  | .hang, _ => .hang
  | .done a, f => f a

/-- One iteration of the part loop of `CronData::process_parts`
(CronData.h, lines 199-247): `*` adds the full range; a plain number
goes through `std::stoi` and `add_number`; then the range shapes
(forward and wraparound) and the step shape; anything else makes the
result false. -/
def process_part (k : FieldKind) (p : List Char) (acc : Bool × Finset Nat) : PRes (Bool × Finset Nat) :=
  if p = ['*'] then
    .done (acc.1, add_full_range k acc.2)
  else if is_number p then
    match stoi p with
    | .error _ => .thrown
    | .ok n =>
      let r := add_number k acc.2 n
      .done (acc.1 && r.1, r.2)
  else
    match get_range k p with
    | .error _ => .thrown
    | .ok (some (lo, hi)) =>
      if lo ≤ hi then
        let r := add_list k (List.range' lo (hi + 1 - lo)) acc.2
        .done (acc.1 && r.1, r.2)
      else
        let r1 := add_list k (List.range' lo (k.last + 1 - lo)) acc.2
        let r2 := add_list k (List.range' k.first (hi + 1 - k.first)) r1.2
        .done (acc.1 && (r1.1 && r2.1), r2.2)
    | .ok none =>
      match get_step k p with
      | .error _ => .thrown
      | .ok (some (st, sp)) =>
        match step_loop k stepFuel true acc.2 st sp with
        | none => .hang
        | some r => .done (acc.1 && r.1, r.2)
      | .ok none => .done (false, acc.2)

/-- `CronData::process_parts` (CronData.h, lines 189-250). -/
def process_parts (k : FieldKind) : List (List Char) → Bool × Finset Nat → PRes (Bool × Finset Nat)
  | [], acc => .done acc
  | p :: ps, acc => pbind (process_part k p acc) (process_parts k ps)

/-- `CronData::validate_numeric` (CronData.h, lines 152-158). -/
def validate_numeric (k : FieldKind) (tok : List Char) : PRes (Bool × Finset Nat) :=
  process_parts k (splitChar ',' tok) (true, ∅)

/-- ASCII letter test used to state the case-insensitive matching of
`std::regex_constants::icase` on the three-letter name tables. -/
def is_letter (c : Char) : Bool :=
  (decide ('A' ≤ c) && decide (c ≤ 'Z')) || (decide ('a' ≤ c) && decide (c ≤ 'z'))

/-- ASCII lower-casing, as `icase` regex matching needs. -/
def lowerc (c : Char) : Char :=
  if 'A' ≤ c ∧ c ≤ 'Z' then Char.ofNat (c.toNat + 32) else c

/-- Does `l` start with the (lowercase) pattern, case-insensitively? -/
def ci_starts (pat l : List Char) : Bool :=
  decide ((l.take pat.length).map lowerc = pat)

/-- `std::regex_replace` of the literal pattern `pat` (case-insensitive)
by `rep`: leftmost, non-overlapping occurrences, scanning left to
right.  Terminates on fuel, always called with the input length;
each recursive call shortens the remaining input by at least one
character, so that fuel suffices for every nonempty pattern. -/
def replaceCI : Nat → List Char → List Char → List Char → List Char
  | 0, _, _, l => l
  | fuel + 1, pat, rep, l =>
    match l with
    | [] => []
    | c :: rest =>
      if ci_starts pat (c :: rest) then
        rep ++ replaceCI fuel pat rep ((c :: rest).drop pat.length)
      else
        c :: replaceCI fuel pat rep rest

def natToDigitsAux : Nat → Nat → List Char
  | 0, _ => []
  | fuel + 1, n =>
    if n < 10 then [Char.ofNat (48 + n)]
    else natToDigitsAux fuel (n / 10) ++ [Char.ofNat (48 + n % 10)]

/-- `std::to_string` on a natural number. -/
def natToDigits (n : Nat) : List Char := natToDigitsAux (n + 1) n

/-- The name-substitution loop of `CronData::validate_literal`
(CronData.h, lines 160-187): for each name, in list order, replace its
case-insensitive occurrences in every part by the current value, which
starts at `value_of(T::First)` and is incremented after each name. -/
def subst_names : List (List Char) → Nat → List (List Char) → List (List Char)
  | [], _, parts => parts
  | n :: ns, v, parts =>
    subst_names ns (v + 1) (parts.map (fun p => replaceCI p.length n (natToDigits v) p))

/-- Modelled from the spec: the name tables are filled by the `CronData`
constructor in the missing `CronData.cpp`; the `CronData.h` header
comment lists the month names JAN..DEC. -/
def month_names : List (List Char) :=
  [('j' :: 'a' :: 'n' :: []), ('f' :: 'e' :: 'b' :: []), ('m' :: 'a' :: 'r' :: []),
   ('a' :: 'p' :: 'r' :: []), ('m' :: 'a' :: 'y' :: []), ('j' :: 'u' :: 'n' :: []),
   ('j' :: 'u' :: 'l' :: []), ('a' :: 'u' :: 'g' :: []), ('s' :: 'e' :: 'p' :: []),
   ('o' :: 'c' :: 't' :: []), ('n' :: 'o' :: 'v' :: []), ('d' :: 'e' :: 'c' :: [])]

/-- Modelled from the spec: the day-of-week name table (header comment
lists SUN..SAT with Sunday = 0). -/
def day_names : List (List Char) :=
  [('s' :: 'u' :: 'n' :: []), ('m' :: 'o' :: 'n' :: []), ('t' :: 'u' :: 'e' :: []),
   ('w' :: 'e' :: 'd' :: []), ('t' :: 'h' :: 'u' :: []), ('f' :: 'r' :: 'i' :: []),
   ('s' :: 'a' :: 't' :: [])]

/-- `CronData::validate_literal` (CronData.h, lines 160-187): split on
commas, substitute the names, then process like a numeric token. -/
def validate_literal (k : FieldKind) (names : List (List Char)) (tok : List Char) : PRes (Bool × Finset Nat) :=
  process_parts k (subst_names names k.first (splitChar ',' tok)) (true, ∅)

/-- The parsed expression: six value sets and the validity flag
(`CronData`'s private state). -/
structure CronData where
  seconds : Finset Nat
  minutes : Finset Nat
  hours : Finset Nat
  day_of_month : Finset Nat
  months : Finset Nat
  day_of_week : Finset Nat
  valid : Bool
  deriving DecidableEq

def isSpace (c : Char) : Bool :=
  c = ' ' || c = '\t' || c = '\n' || c = '\r'

def wsTokensAux : List Char → List Char → List (List Char)
  | cur, [] => if cur.isEmpty then [] else [cur.reverse]
  | cur, c :: rest =>
    if isSpace c then
      if cur.isEmpty then wsTokensAux [] rest
      else cur.reverse :: wsTokensAux [] rest
    else
      wsTokensAux (c :: cur) rest

/-- Split a string on whitespace runs, dropping empty tokens. -/
def wsTokens (l : List Char) : List (List Char) := wsTokensAux [] l

/-- Modelled from the spec: `CronData::parse` / `CronData::create` live
in the missing `CronData.cpp`.  Per spec section 4.1 the text is split
on whitespace runs into exactly six tokens (anything else leaves the
expression invalid with the sets untouched); each token is validated
against its field, the first four numerically, month and day of week
through the literal name tables; the validity flag is the conjunction
of the six per-field results.  Nothing catches the `std::stoi`
exception, so a thrown field propagates. -/
def parse (l : List Char) : PRes CronData :=
  match wsTokens l with
  | [t1, t2, t3, t4, t5, t6] =>
    pbind (validate_numeric secondsKind t1) (fun a =>
    pbind (validate_numeric minutesKind t2) (fun b =>
    pbind (validate_numeric hoursKind t3) (fun c =>
    pbind (validate_numeric dayOfMonthKind t4) (fun d =>
    pbind (validate_literal monthsKind month_names t5) (fun e =>
    pbind (validate_literal dayOfWeekKind day_names t6) (fun f =>
    .done ⟨a.2, b.2, c.2, d.2, e.2, f.2,
           a.1 && b.1 && c.1 && d.1 && e.1 && f.1⟩))))))
  | _ => .done ⟨∅, ∅, ∅, ∅, ∅, ∅, false⟩

/-- `CronData::create` on a string. -/
def create (s : String) : PRes CronData := parse s.toList

/-! ## Spec-side characterisation of a parsed part

For the refinement claim about the validity flag, the following
definitions spell out, following the spec's words (section 4.1), which
values one comma-separated part "parses into": the full range for `*`,
the denoted value for a plain integer, the forward or wraparound range
for `low-high`, and the successive iterates of the step loop for
`start/step`.  They are compared against the embedded code above. -/

/-- The successive values the step loop visits (before bounds
filtering): from `v`, step `sp` modulo 256, while at most `Last`.
`none` when the fuel runs out (the loop does not terminate). -/
def iter_list (k : FieldKind) : Nat → Nat → Nat → Option (List Nat)
  | 0, _, _ => none
  | fuel + 1, v, sp =>
    if v ≤ k.last then
      match iter_list k fuel ((v + sp) % 256) sp with
      | none => none
      | some l => some (v :: l)
    else
      some []

/-- The values a part parses into: `.done none` when the part matches no
shape, `.done (some vs)` when it parses into the values `vs`, `.thrown`
and `.hang` when deriving the values overflows `std::stoi` or never
finishes. -/
def spec_values (k : FieldKind) (p : List Char) : PRes (Option (List Nat)) :=
  if p = ['*'] then
    .done (some (List.range' k.first (k.last + 1 - k.first)))
  else if is_number p then
    match stoi p with
    | .error _ => .thrown
    | .ok n => .done (some [n])
  else
    match get_range k p with
    | .error _ => .thrown
    | .ok (some (lo, hi)) =>
      if lo ≤ hi then
        .done (some (List.range' lo (hi + 1 - lo)))
      else
        .done (some (List.range' lo (k.last + 1 - lo) ++ List.range' k.first (hi + 1 - k.first)))
    | .ok none =>
      match get_step k p with
      | .error _ => .thrown
      | .ok (some (st, sp)) =>
        match iter_list k stepFuel st sp with
        | none => .hang
        | some l => .done (some l)
      | .ok none => .done none

/-- Spec-side verdict for a token's part list: true when every part
parses into values that are all within the field's limits; parts are
examined left to right and a failing part does not stop the
examination of the rest. -/
def spec_parts (k : FieldKind) : List (List Char) → PRes Bool
  | [] => .done true
  | p :: ps =>
    pbind (spec_values k p) (fun o =>
    pbind (spec_parts k ps) (fun b =>
    .done ((match o with
            | none => false
            | some vs => vs.all (within k)) && b)))

/-- Spec-side validity of a whole expression (spec section 3,
ParsedExpression invariant): the text splits into exactly six
whitespace-separated tokens and every comma-separated part of every
token (after name substitution on the month and day-of-week tokens)
parses into values within that field's bounds. -/
def spec_valid (l : List Char) : Prop :=
  ∃ t1 t2 t3 t4 t5 t6, wsTokens l = [t1, t2, t3, t4, t5, t6] ∧
    spec_parts secondsKind (splitChar ',' t1) = .done true ∧
    spec_parts minutesKind (splitChar ',' t2) = .done true ∧
    spec_parts hoursKind (splitChar ',' t3) = .done true ∧
    spec_parts dayOfMonthKind (splitChar ',' t4) = .done true ∧
    spec_parts monthsKind (subst_names month_names monthsKind.first (splitChar ',' t5)) = .done true ∧
    spec_parts dayOfWeekKind (subst_names day_names dayOfWeekKind.first (splitChar ',' t6)) = .done true

/-! ## Calendar and occurrence calculation

`CronSchedule::calculate_from` is declared in
`src/libcron/include/libcron/CronSchedule.h` but its body is not under
`src/`; the spec (section 4.2) fixes its semantics: the earliest
instant strictly greater than the start satisfying all six sets, inside
a bounded search horizon, with day-of-month and day-of-week combined by
logical AND.  Instants are seconds since 1970-01-01T00:00:00; the
calendar collaborator (section 6) is embedded as `to_calendar_time`,
leap-year and variable-month-length correct. -/

def isLeap (y : Nat) : Bool :=
  (decide (y % 4 = 0) && !(decide (y % 100 = 0))) || decide (y % 400 = 0)

def daysInYear (y : Nat) : Nat := if isLeap y then 366 else 365

def daysInMonth (y m : Nat) : Nat :=
  if m = 1 then 31
  else if m = 2 then (if isLeap y then 29 else 28)
  else if m = 3 then 31
  else if m = 4 then 30
  else if m = 5 then 31
  else if m = 6 then 30
  else if m = 7 then 31
  else if m = 8 then 31
  else if m = 9 then 30
  else if m = 10 then 31
  else if m = 11 then 30
  else 31

def year_loop : Nat → Nat → Nat → Nat × Nat
  | 0, y, d => (y, d)
  | fuel + 1, y, d =>
    if d < daysInYear y then (y, d) else year_loop fuel (y + 1) (d - daysInYear y)

def month_loop : Nat → Nat → Nat → Nat → Nat × Nat
  | 0, _, m, d => (m, d)
  | fuel + 1, y, m, d =>
    if d < daysInMonth y m then (m, d) else month_loop fuel y (m + 1) (d - daysInMonth y m)

/-- Calendar components of an instant (the `DateTime` of the source). -/
structure DateTime where
  year : Nat
  month : Nat
  day : Nat
  hour : Nat
  minute : Nat
  sec : Nat
  deriving DecidableEq

/-- `CronSchedule::to_calendar_time`: components of an instant.  The
year search is fuelled generously (3000 years). -/
def to_calendar_time (t : Nat) : DateTime :=
  let days := t / 86400
  let rem := t % 86400
  let yd := year_loop 3000 1970 days
  let md := month_loop 12 yd.1 1 yd.2
  ⟨yd.1, md.1, md.2 + 1, rem / 3600, rem % 3600 / 60, rem % 60⟩

/-- Day of week of an instant, Sunday = 0 (1970-01-01 was a Thursday). -/
def dow_of (t : Nat) : Nat := (t / 86400 + 4) % 7

/-- Does the instant satisfy every field set of the expression?
Day-of-month and day-of-week both constrain (logical AND). -/
def cron_match (c : CronData) (t : Nat) : Bool :=
  let dt := to_calendar_time t
  decide (dt.sec ∈ c.seconds) && decide (dt.minute ∈ c.minutes) &&
  decide (dt.hour ∈ c.hours) && decide (dt.day ∈ c.day_of_month) &&
  decide (dt.month ∈ c.months) && decide (dow_of t ∈ c.day_of_week)

/-- First instant at or after `t` satisfying `p`, searching at most
`fuel` instants. -/
def find_first (p : Nat → Bool) : Nat → Nat → Option Nat
  | _, 0 => none
  | t, fuel + 1 => if p t then some t else find_first p (t + 1) fuel

/-- Bounded search horizon, five years of seconds (spec section 4.2). -/
def horizon : Nat := 5 * 366 * 86400

/-- Modelled from the spec: `CronSchedule::calculate_from` (body not
under `src/`); per spec section 4.2 it returns the earliest instant
strictly greater than `fromT` (search starts at `fromT` + 1 second)
whose components all lie in the expression's sets, or nothing when the
expression is invalid or the bounded horizon is exceeded. -/
def calculate_from (c : CronData) (fromT : Nat) : Option Nat :=
  if c.valid then find_first (cron_match c) (fromT + 1) horizon else none

/-! ## Task scheduler

The `Cron` class (task collection, `add_schedule`, `count`,
`time_until_next`, `execute_expired_tasks`) is exercised by
`src/test/CronTest.cpp` but its code is not under `src/`; it is
modelled from spec section 4.3.  Callback capabilities are represented
by the task identifiers of the fired tasks, returned in firing order. -/

structure Task where
  ident : Nat
  sched : CronData
  next : Option Nat
  deriving DecidableEq

/-- Is the task due at the reference time (cached next occurrence at or
before it)?  A task with no future occurrence is never due. -/
def is_due (ref : Nat) (t : Task) : Bool :=
  match t.next with
  | some n => decide (n ≤ ref)
  | none => false

/-- Recompute a fired task's next occurrence strictly after the
reference time (spec section 4.3: not after the callback's own
completion time). -/
def recompute (ref : Nat) (t : Task) : Task :=
  { t with next := calculate_from t.sched ref }

/-- Ordering key comparison: by cached next occurrence ascending, tasks
with no future occurrence at the end. -/
def key_le (a b : Task) : Prop :=
  match a.next, b.next with
  | some x, some y => x ≤ y
  | some _, none => True
  | none, some _ => False
  | none, none => True

instance : DecidableRel key_le := by
  intro a b
  unfold key_le
  match a.next, b.next with
  | some x, some y => exact inferInstanceAs (Decidable (x ≤ y))
  | some _, none => exact inferInstanceAs (Decidable True)
  | none, some _ => exact inferInstanceAs (Decidable False)
  | none, none => exact inferInstanceAs (Decidable True)

instance : IsTotal Task key_le := by
  constructor
  intro a b
  unfold key_le
  match a.next, b.next with
  | some x, some y => exact Nat.le_total x y
  | some _, none => exact Or.inl trivial
  | none, some _ => exact Or.inr trivial
  | none, none => exact Or.inl trivial

instance : IsTrans Task key_le := by
  constructor
  intro a b c
  unfold key_le
  match a.next, b.next, c.next with
  | some x, some y, some z => exact Nat.le_trans
  | some x, some y, none => exact fun _ _ => trivial
  | some x, none, some z => exact fun _ h => h.elim
  | some x, none, none => exact fun _ _ => trivial
  | none, some y, _ => exact fun h _ => h.elim
  | none, none, some z => exact fun _ h => h.elim
  | none, none, none => exact fun _ _ => trivial

/-- Modelled from the spec: `Cron::execute_expired_tasks` (spec name
`execute_due`, section 4.3).  Every task whose cached next occurrence
is at or before the reference time fires, in collection order
(ascending next occurrence for a sorted collection), exactly once;
each fired task's next occurrence is recomputed strictly after the
reference time and the task is re-positioned in the ordering.  Returns
the number of tasks fired, the identifiers fired in order, and the new
collection. -/
def execute_due (ref : Nat) (ts : List Task) : Nat × List Nat × List Task :=
  let due := ts.filter (is_due ref)
  let rest := ts.filter (fun t => !is_due ref t)
  let updated := due.map (recompute ref)
  (due.length, due.map Task.ident,
   updated.foldl (fun acc t => List.orderedInsert key_le t acc) rest)

/-! ## Basic lemmas about the parsing primitives -/

theorem within_iff {k : FieldKind} {n : Nat} :
    within k n = true ↔ k.first ≤ n ∧ n ≤ k.last := by
  simp [within, is_within_limits, is_between, and_assoc]

theorem within_iff_mem_Icc {k : FieldKind} {n : Nat} :
    within k n = true ↔ n ∈ Finset.Icc k.first k.last := by
  rw [within_iff, Finset.mem_Icc]

theorem is_within_limits_single {k : FieldKind} {n : Nat} :
    is_within_limits k n n = within k n := rfl

/-- Under the bounds invariant, `add_number` succeeds exactly on
in-limits values and inserts exactly the in-limits ones. -/
theorem add_number_eq {k : FieldKind} {s : Finset Nat} (n : Nat)
    (h : s ⊆ Finset.Icc k.first k.last) :
    add_number k s n = (within k n, if within k n then insert n s else s) := by
  unfold add_number
  rw [is_within_limits_single]
  by_cases hm : n ∈ s
  · have hw : within k n = true := within_iff_mem_Icc.mpr (h hm)
    simp [hm, hw, Finset.insert_eq_self.mpr hm]
  · by_cases hw : within k n = true
    · simp [hm, hw]
    · simp [hm, hw]

theorem add_number_subset {k : FieldKind} {s : Finset Nat} (n : Nat)
    (h : s ⊆ Finset.Icc k.first k.last) :
    (add_number k s n).2 ⊆ Finset.Icc k.first k.last := by
  rw [add_number_eq n h]
  by_cases hw : within k n
  · simpa [hw] using Finset.insert_subset (within_iff_mem_Icc.mp hw) h
  · simpa [hw] using h

theorem union_filter_subset {k : FieldKind} {s : Finset Nat} (l : List Nat)
    (h : s ⊆ Finset.Icc k.first k.last) :
    s ∪ (l.filter (within k)).toFinset ⊆ Finset.Icc k.first k.last := by
  intro x hx
  rcases Finset.mem_union.mp hx with hx | hx
  · exact h hx
  · rw [List.mem_toFinset] at hx
    exact within_iff_mem_Icc.mp (List.of_mem_filter hx)

/-- The `res &= add_number` loop over a list of values: the flag is
true exactly when all values are within limits, and exactly the
in-limits values are inserted. -/
theorem add_list_eq {k : FieldKind} (l : List Nat) :
    ∀ s : Finset Nat, s ⊆ Finset.Icc k.first k.last →
      add_list k l s = (l.all (within k), s ∪ (l.filter (within k)).toFinset) := by
  induction l with
  | nil => intro s _; simp [add_list]
  | cons v vs ih =>
    intro s hs
    by_cases hw : within k v = true
    · have h1 : add_number k s v = (true, insert v s) := by
        rw [add_number_eq v hs, if_pos hw, hw]
      have hsub : insert v s ⊆ Finset.Icc k.first k.last :=
        Finset.insert_subset (within_iff_mem_Icc.mp hw) hs
      rw [List.filter_cons_of_pos hw]
      simp only [add_list, h1, ih (insert v s) hsub, List.all_cons, hw, Bool.true_and,
        List.toFinset_cons]
      refine Prod.ext rfl ?_
      ext x
      simp only [Finset.mem_union, Finset.mem_insert, List.mem_toFinset]
      tauto
    · have h1 : add_number k s v = (false, s) := by
        rw [add_number_eq v hs, if_neg hw]
        simp only [Bool.not_eq_true] at hw
        rw [hw]
      rw [List.filter_cons_of_neg (by simpa using hw)]
      simp only [add_list, h1, ih s hs, List.all_cons, hw, Bool.false_and]

/-- The step loop mirrors `iter_list` exactly: same fuel behaviour, and
on termination the flag and set are those of the visited values. -/
theorem step_loop_eq {k : FieldKind} :
    ∀ (fuel : Nat) (res : Bool) (s : Finset Nat) (v sp : Nat),
      s ⊆ Finset.Icc k.first k.last →
      step_loop k fuel res s v sp =
        (iter_list k fuel v sp).map
          (fun l => (res && l.all (within k), s ∪ (l.filter (within k)).toFinset)) := by
  intro fuel
  induction fuel with
  | zero => intro res s v sp _; rfl
  | succ fuel ih =>
    intro res s v sp hs
    by_cases hv : v ≤ k.last
    · by_cases hw : within k v = true
      · have h1 : add_number k s v = (true, insert v s) := by
          rw [add_number_eq v hs, if_pos hw, hw]
        have hs2 : insert v s ⊆ Finset.Icc k.first k.last :=
          Finset.insert_subset (within_iff_mem_Icc.mp hw) hs
        rw [step_loop, iter_list, if_pos hv, if_pos hv]
        simp only [h1, Bool.and_true]
        rw [ih res (insert v s) ((v + sp) % 256) sp hs2]
        cases hit : iter_list k fuel ((v + sp) % 256) sp with
        | none => rfl
        | some l =>
          simp only [Option.map_some']
          rw [List.filter_cons_of_pos hw]
          simp only [Option.some.injEq, List.all_cons, hw, Bool.true_and,
            List.toFinset_cons]
          refine Prod.ext rfl ?_
          ext x
          simp only [Finset.mem_union, Finset.mem_insert, List.mem_toFinset]
          tauto
      · have h1 : add_number k s v = (false, s) := by
          rw [add_number_eq v hs, if_neg hw]
          simp only [Bool.not_eq_true] at hw
          rw [hw]
        rw [step_loop, iter_list, if_pos hv, if_pos hv]
        simp only [h1, Bool.and_false]
        rw [ih false s ((v + sp) % 256) sp hs]
        cases hit : iter_list k fuel ((v + sp) % 256) sp with
        | none => rfl
        | some l =>
          simp only [Option.map_some']
          rw [List.filter_cons_of_neg (by simpa using hw)]
          simp only [Option.some.injEq, List.all_cons, hw, Bool.false_and,
            Bool.and_false]
    · rw [step_loop, iter_list, if_neg hv, if_neg hv]
      simp

theorem is_within_limits_iff {k : FieldKind} {a b : Nat} :
    is_within_limits k a b = true ↔
      (k.first ≤ a ∧ a ≤ k.last) ∧ (k.first ≤ b ∧ b ≤ k.last) := by
  simp [is_within_limits, is_between, and_assoc]

theorem within_of_mem_range' {k : FieldKind} {a c m : Nat}
    (ha : k.first ≤ a) (hc : c ≤ k.last) (hm : m ∈ List.range' a (c + 1 - a)) :
    within k m = true := by
  rw [List.mem_range'_1] at hm
  rw [within_iff]
  omega

theorem all_within_range' {k : FieldKind} {a c : Nat}
    (ha : k.first ≤ a) (hc : c ≤ k.last) :
    (List.range' a (c + 1 - a)).all (within k) = true := by
  rw [List.all_eq_true]
  intro m hm
  exact within_of_mem_range' ha hc hm

theorem filter_within_range' {k : FieldKind} {a c : Nat}
    (ha : k.first ≤ a) (hc : c ≤ k.last) :
    (List.range' a (c + 1 - a)).filter (within k) = List.range' a (c + 1 - a) :=
  List.filter_eq_self.mpr fun m hm => within_of_mem_range' ha hc hm

/-- `get_range` only returns bounds that passed `is_within_limits`. -/
theorem get_range_limits {k : FieldKind} {p : List Char} {lo hi : Nat}
    (h : get_range k p = .ok (some (lo, hi))) :
    is_within_limits k lo hi = true := by
  unfold get_range at h
  split at h
  · exact absurd h (by simp)
  · split at h
    · exact absurd h (by simp)
    · split at h
      · exact absurd h (by simp)
      · split at h
        · injection h with h
          injection h with h
          cases h
          assumption
        · exact absurd h (by simp)

/-- Under the bounds invariant, one part of `process_parts` behaves
exactly as the spec-side value reading prescribes: the part's flag is
the conjunction of "matches a shape" and "all parsed values within
limits", and exactly the in-limits parsed values are inserted. -/
theorem process_part_eq {k : FieldKind} (p : List Char) (r : Bool) (s : Finset Nat)
    (hs : s ⊆ Finset.Icc k.first k.last) :
    process_part k p (r, s) =
      match spec_values k p with
      | .thrown => .thrown
      | .hang => .hang
      | .done none => .done (false, s)
      | .done (some vs) =>
          .done (r && vs.all (within k), s ∪ (vs.filter (within k)).toFinset) := by
  unfold process_part spec_values
  by_cases h1 : p = ['*']
  · simp only [h1, if_true, reduceIte]
    rw [all_within_range' (Nat.le_refl _) (Nat.le_refl _),
      filter_within_range' (Nat.le_refl _) (Nat.le_refl _)]
    simp [add_full_range]
  · rw [if_neg h1, if_neg h1]
    by_cases h2 : is_number p
    · rw [if_pos h2, if_pos h2]
      rcases hst : stoi p with _ | n
      · simp only [hst]
      · simp only [hst]
        rw [add_number_eq n hs]
        simp only [List.all_cons, List.all_nil, Bool.and_true, List.filter_cons,
          List.filter_nil]
        by_cases hw : within k n = true
        · rw [if_pos hw, hw]
          simp only [if_pos hw, PRes.done.injEq, Prod.mk.injEq, true_and]
          simp only [if_true, List.toFinset_cons, List.toFinset_nil, insert_emptyc_eq]
          rw [Finset.insert_eq, Finset.union_comm]
        · simp only [Bool.not_eq_true] at hw
          rw [hw]
          simp only [Bool.and_false]
          rw [if_neg (by simp [hw]), if_neg (by simp [hw])]
          simp
    · rw [if_neg h2, if_neg h2]
      rcases hgr : get_range k p with _ | o
      · simp only [hgr]
      · rcases o with _ | ⟨lo, hi⟩
        · rcases hgs : get_step k p with _ | o2
          · simp only [hgr, hgs]
          · rcases o2 with _ | ⟨st, sp⟩
            · simp only [hgr, hgs]
            · simp only [hgr, hgs]
              rw [step_loop_eq stepFuel true s st sp hs]
              rcases hit : iter_list k stepFuel st sp with _ | vl
              · simp only [hit, Option.map_none']
              · simp only [hit, Option.map_some', Bool.true_and]
        · simp only [hgr]
          have hlim := get_range_limits hgr
          rw [is_within_limits_iff] at hlim
          by_cases hle : lo ≤ hi
          · rw [if_pos hle, if_pos hle]
            dsimp only
            rw [add_list_eq _ s hs,
              all_within_range' hlim.1.1 hlim.2.2,
              filter_within_range' hlim.1.1 hlim.2.2]
          · rw [if_neg hle, if_neg hle]
            dsimp only
            rw [add_list_eq _ s hs,
              all_within_range' hlim.1.1 (Nat.le_refl _),
              filter_within_range' hlim.1.1 (Nat.le_refl _)]
            have hs1 : s ∪ (List.range' lo (k.last + 1 - lo)).toFinset ⊆
                Finset.Icc k.first k.last := by
              rw [← filter_within_range' (k := k) hlim.1.1 (Nat.le_refl _)]
              exact union_filter_subset _ hs
            rw [add_list_eq _ _ hs1,
              all_within_range' (Nat.le_refl _) hlim.2.2,
              filter_within_range' (Nat.le_refl _) hlim.2.2]
            simp only [Bool.and_true, List.all_append, List.filter_append,
              all_within_range' (k := k) hlim.1.1 (Nat.le_refl _),
              all_within_range' (k := k) (Nat.le_refl _) hlim.2.2,
              filter_within_range' (k := k) hlim.1.1 (Nat.le_refl _),
              filter_within_range' (k := k) (Nat.le_refl _) hlim.2.2,
              List.toFinset_append, Finset.union_assoc]

/-- List-level correspondence: under the bounds invariant, the outcome
of `process_parts` (exception, hang, or flag) is the spec-side verdict
of the part list, with the incoming flag conjoined, and the resulting
set stays within bounds. -/
theorem process_parts_spec {k : FieldKind} :
    ∀ (parts : List (List Char)) (r : Bool) (s : Finset Nat),
      s ⊆ Finset.Icc k.first k.last →
      (spec_parts k parts = .thrown → process_parts k parts (r, s) = .thrown) ∧
      (spec_parts k parts = .hang → process_parts k parts (r, s) = .hang) ∧
      (∀ b, spec_parts k parts = .done b →
        ∃ s2, process_parts k parts (r, s) = .done (r && b, s2) ∧
          s2 ⊆ Finset.Icc k.first k.last) := by
  intro parts
  induction parts with
  | nil =>
    intro r s hs
    refine ⟨fun h => by exact absurd h (by simp [spec_parts]),
            fun h => by exact absurd h (by simp [spec_parts]), ?_⟩
    intro b hb
    simp only [spec_parts, PRes.done.injEq] at hb
    exact ⟨s, by simp [process_parts, ← hb], hs⟩
  | cons p ps ih =>
    intro r s hs
    have hpp := process_part_eq p r s hs
    rcases hsv : spec_values k p with _ | _ | o
    · rw [hsv] at hpp
      have hproc : process_parts k (p :: ps) (r, s) = .thrown := by
        rw [process_parts, hpp]
        rfl
      have hspec : spec_parts k (p :: ps) = .thrown := by
        rw [spec_parts, hsv]
        rfl
      rw [hspec, hproc]
      refine ⟨fun _ => rfl, fun h => ?_, fun b h => ?_⟩
      · simp at h
      · simp at h
    · rw [hsv] at hpp
      have hproc : process_parts k (p :: ps) (r, s) = .hang := by
        rw [process_parts, hpp]
        rfl
      have hspec : spec_parts k (p :: ps) = .hang := by
        rw [spec_parts, hsv]
        rfl
      rw [hspec, hproc]
      refine ⟨fun h => ?_, fun _ => rfl, fun b h => ?_⟩
      · simp at h
      · simp at h
    · rw [hsv] at hpp
      rcases o with _ | vs
      · have hpp2 : process_part k p (r, s) = .done (false, s) := hpp
        have hstep : process_parts k (p :: ps) (r, s) = process_parts k ps (false, s) := by
          rw [process_parts, hpp2]
          rfl
        have hspec2 : spec_parts k (p :: ps) =
            pbind (spec_parts k ps) (fun b => .done (false && b)) := by
          rw [spec_parts, hsv]
          rfl
        obtain ⟨iht, ihh, ihd⟩ := ih false s hs
        refine ⟨?_, ?_, ?_⟩
        · intro h
          rw [hspec2] at h
          rcases hps : spec_parts k ps with _ | _ | b2 <;> rw [hps] at h
          · rw [hstep]
            have := iht hps
            simpa using this
          · exact absurd h (by simp [pbind])
          · exact absurd h (by simp [pbind])
        · intro h
          rw [hspec2] at h
          rcases hps : spec_parts k ps with _ | _ | b2 <;> rw [hps] at h
          · exact absurd h (by simp [pbind])
          · rw [hstep]
            have := ihh hps
            simpa using this
          · exact absurd h (by simp [pbind])
        · intro b h
          rw [hspec2] at h
          rcases hps : spec_parts k ps with _ | _ | b2 <;> rw [hps] at h
          · exact absurd h (by simp [pbind])
          · exact absurd h (by simp [pbind])
          · simp only [pbind, PRes.done.injEq] at h
            obtain ⟨s2, hs2, hs2b⟩ := ihd b2 hps
            refine ⟨s2, ?_, hs2b⟩
            rw [hstep, hs2, ← h]
            simp
      · have hpp2 : process_part k p (r, s) =
            .done (r && vs.all (within k), s ∪ (vs.filter (within k)).toFinset) := hpp
        have hs1 : s ∪ (vs.filter (within k)).toFinset ⊆ Finset.Icc k.first k.last :=
          union_filter_subset vs hs
        have hstep : process_parts k (p :: ps) (r, s) =
            process_parts k ps
              (r && vs.all (within k), s ∪ (vs.filter (within k)).toFinset) := by
          rw [process_parts, hpp2]
          rfl
        have hspec2 : spec_parts k (p :: ps) =
            pbind (spec_parts k ps) (fun b => .done (vs.all (within k) && b)) := by
          rw [spec_parts, hsv]
          rfl
        obtain ⟨iht, ihh, ihd⟩ := ih (r && vs.all (within k)) _ hs1
        refine ⟨?_, ?_, ?_⟩
        · intro h
          rw [hspec2] at h
          rcases hps : spec_parts k ps with _ | _ | b2 <;> rw [hps] at h
          · rw [hstep]
            exact iht hps
          · exact absurd h (by simp [pbind])
          · exact absurd h (by simp [pbind])
        · intro h
          rw [hspec2] at h
          rcases hps : spec_parts k ps with _ | _ | b2 <;> rw [hps] at h
          · exact absurd h (by simp [pbind])
          · rw [hstep]
            exact ihh hps
          · exact absurd h (by simp [pbind])
        · intro b h
          rw [hspec2] at h
          rcases hps : spec_parts k ps with _ | _ | b2 <;> rw [hps] at h
          · exact absurd h (by simp [pbind])
          · exact absurd h (by simp [pbind])
          · simp only [pbind, PRes.done.injEq] at h
            obtain ⟨s2, hs2, hs2b⟩ := ihd b2 hps
            refine ⟨s2, ?_, hs2b⟩
            rw [hstep, hs2, ← h, Bool.and_assoc]

/-- A numeric field's parse result determines the spec-side verdict of
its comma-separated parts, and its set respects the bounds. -/
theorem validate_numeric_done {k : FieldKind} {tok : List Char} {b : Bool} {s : Finset Nat}
    (h : validate_numeric k tok = .done (b, s)) :
    spec_parts k (splitChar ',' tok) = .done b ∧ s ⊆ Finset.Icc k.first k.last := by
  obtain ⟨iht, ihh, ihd⟩ :=
    process_parts_spec (k := k) (splitChar ',' tok) true ∅ (by simp)
  rcases hsp : spec_parts k (splitChar ',' tok) with _ | _ | b2
  · rw [validate_numeric, iht hsp] at h
    cases h
  · rw [validate_numeric, ihh hsp] at h
    cases h
  · obtain ⟨s2, hs2, hs2b⟩ := ihd b2 hsp
    rw [validate_numeric, hs2] at h
    injection h with h
    have hb : b = b2 := by
      have := congrArg Prod.fst h
      simpa using this.symm
    have hss : s = s2 := (congrArg Prod.snd h).symm
    subst hb
    subst hss
    exact ⟨rfl, hs2b⟩

/-- Same for a literal field, whose parts are first name-substituted. -/
theorem validate_literal_done {k : FieldKind} {names : List (List Char)} {tok : List Char}
    {b : Bool} {s : Finset Nat}
    (h : validate_literal k names tok = .done (b, s)) :
    spec_parts k (subst_names names k.first (splitChar ',' tok)) = .done b ∧
      s ⊆ Finset.Icc k.first k.last := by
  obtain ⟨iht, ihh, ihd⟩ :=
    process_parts_spec (k := k) (subst_names names k.first (splitChar ',' tok)) true ∅ (by simp)
  rcases hsp : spec_parts k (subst_names names k.first (splitChar ',' tok)) with _ | _ | b2
  · rw [validate_literal, iht hsp] at h
    cases h
  · rw [validate_literal, ihh hsp] at h
    cases h
  · obtain ⟨s2, hs2, hs2b⟩ := ihd b2 hsp
    rw [validate_literal, hs2] at h
    injection h with h
    have hb : b = b2 := by
      have := congrArg Prod.fst h
      simpa using this.symm
    have hss : s = s2 := (congrArg Prod.snd h).symm
    subst hb
    subst hss
    exact ⟨rfl, hs2b⟩

theorem pbind_done {α β : Type} {x : PRes α} {f : α → PRes β} {y : β}
    (h : pbind x f = .done y) : ∃ a, x = .done a ∧ f a = .done y := by
  cases x with
  | thrown => cases h
  | hang => cases h
  | done a => exact ⟨a, rfl, h⟩

/-- Structure of a completed parse: either the text split into exactly
six tokens, all six fields completed, and the result is assembled from
the six per-field results, or the split was not six tokens and the
result is the default invalid expression. -/
theorem parse_done_cases {l : List Char} {c : CronData} (h : parse l = .done c) :
    (∃ t1 t2 t3 t4 t5 t6 p1 p2 p3 p4 p5 p6,
      wsTokens l = [t1, t2, t3, t4, t5, t6] ∧
      validate_numeric secondsKind t1 = .done p1 ∧
      validate_numeric minutesKind t2 = .done p2 ∧
      validate_numeric hoursKind t3 = .done p3 ∧
      validate_numeric dayOfMonthKind t4 = .done p4 ∧
      validate_literal monthsKind month_names t5 = .done p5 ∧
      validate_literal dayOfWeekKind day_names t6 = .done p6 ∧
      c = ⟨p1.2, p2.2, p3.2, p4.2, p5.2, p6.2,
           p1.1 && p2.1 && p3.1 && p4.1 && p5.1 && p6.1⟩) ∨
    ((∀ t1 t2 t3 t4 t5 t6, wsTokens l ≠ [t1, t2, t3, t4, t5, t6]) ∧
      c = ⟨∅, ∅, ∅, ∅, ∅, ∅, false⟩) := by
  unfold parse at h
  split at h
  case h_1 t1 t2 t3 t4 t5 t6 heq =>
    left
    obtain ⟨p1, h1, h⟩ := pbind_done h
    obtain ⟨p2, h2, h⟩ := pbind_done h
    obtain ⟨p3, h3, h⟩ := pbind_done h
    obtain ⟨p4, h4, h⟩ := pbind_done h
    obtain ⟨p5, h5, h⟩ := pbind_done h
    obtain ⟨p6, h6, h⟩ := pbind_done h
    injection h with h
    exact ⟨t1, t2, t3, t4, t5, t6, p1, p2, p3, p4, p5, p6,
      heq, h1, h2, h3, h4, h5, h6, h.symm⟩
  case h_2 hne =>
    right
    injection h with h
    refine ⟨?_, h.symm⟩
    intro t1 t2 t3 t4 t5 t6 heq
    exact hne t1 t2 t3 t4 t5 t6 heq

set_option maxHeartbeats 1000000 in
/-- Helper for the spec-validity right-to-left direction: a completed
parse on a six-token split is assembled from six completed fields. -/
theorem parse_valid_iff {l : List Char} {c : CronData} (h : parse l = .done c) :
    (c.valid = true ↔ spec_valid l) := by
  rcases parse_done_cases h with
    ⟨t1, t2, t3, t4, t5, t6, p1, p2, p3, p4, p5, p6,
      heq, h1, h2, h3, h4, h5, h6, hc⟩ | ⟨hne, hc⟩
  · obtain ⟨hs1, _⟩ := validate_numeric_done h1
    obtain ⟨hs2, _⟩ := validate_numeric_done h2
    obtain ⟨hs3, _⟩ := validate_numeric_done h3
    obtain ⟨hs4, _⟩ := validate_numeric_done h4
    obtain ⟨hs5, _⟩ := validate_literal_done h5
    obtain ⟨hs6, _⟩ := validate_literal_done h6
    subst hc
    constructor
    · intro hv
      simp only [Bool.and_eq_true] at hv
      obtain ⟨⟨⟨⟨⟨v1, v2⟩, v3⟩, v4⟩, v5⟩, v6⟩ := hv
      refine ⟨t1, t2, t3, t4, t5, t6, heq, ?_, ?_, ?_, ?_, ?_, ?_⟩
      · rw [← v1]; exact hs1
      · rw [← v2]; exact hs2
      · rw [← v3]; exact hs3
      · rw [← v4]; exact hs4
      · rw [← v5]; exact hs5
      · rw [← v6]; exact hs6
    · rintro ⟨u1, u2, u3, u4, u5, u6, huq, hv1, hv2, hv3, hv4, hv5, hv6⟩
      rw [heq] at huq
      injection huq with e1 huq
      injection huq with e2 huq
      injection huq with e3 huq
      injection huq with e4 huq
      injection huq with e5 huq
      injection huq with e6 huq
      subst e1; subst e2; subst e3; subst e4; subst e5; subst e6
      rw [hs1] at hv1
      rw [hs2] at hv2
      rw [hs3] at hv3
      rw [hs4] at hv4
      rw [hs5] at hv5
      rw [hs6] at hv6
      injection hv1 with hv1
      injection hv2 with hv2
      injection hv3 with hv3
      injection hv4 with hv4
      injection hv5 with hv5
      injection hv6 with hv6
      simp [hv1, hv2, hv3, hv4, hv5, hv6]
  · subst hc
    constructor
    · intro hv
      cases hv
    · rintro ⟨t1, t2, t3, t4, t5, t6, huq, _⟩
      exact absurd huq (hne t1 t2 t3 t4 t5 t6)

/-- Did `create` complete with an invalid expression? -/
def created_invalid (s : String) : Bool :=
  match create s with
  | .done c => !c.valid
  | _ => false

/-- Did `create` complete with a valid expression? -/
def created_valid (s : String) : Bool :=
  match create s with
  | .done c => c.valid
  | _ => false

theorem range'_toFinset_Icc (a c : Nat) :
    (List.range' a (c + 1 - a)).toFinset = Finset.Icc a c := by
  ext x
  simp only [List.mem_toFinset, List.mem_range'_1, Finset.mem_Icc]
  omega

theorem add_full_range_subset {k : FieldKind} {s : Finset Nat}
    (h : s ⊆ Finset.Icc k.first k.last) :
    add_full_range k s ⊆ Finset.Icc k.first k.last := by
  unfold add_full_range
  rw [range'_toFinset_Icc]
  exact Finset.union_subset h (Finset.Subset.refl _)

/-- Field sets of a completed parse are always within bounds. -/
theorem parse_done_bounds {l : List Char} {c : CronData} (h : parse l = .done c) :
    c.seconds ⊆ Finset.Icc 0 59 ∧ c.minutes ⊆ Finset.Icc 0 59 ∧
    c.hours ⊆ Finset.Icc 0 23 ∧ c.day_of_month ⊆ Finset.Icc 1 31 ∧
    c.months ⊆ Finset.Icc 1 12 ∧ c.day_of_week ⊆ Finset.Icc 0 6 := by
  rcases parse_done_cases h with
    ⟨t1, t2, t3, t4, t5, t6, p1, p2, p3, p4, p5, p6,
      heq, h1, h2, h3, h4, h5, h6, hc⟩ | ⟨hne, hc⟩
  · subst hc
    exact ⟨(validate_numeric_done h1).2, (validate_numeric_done h2).2,
      (validate_numeric_done h3).2, (validate_numeric_done h4).2,
      (validate_literal_done h5).2, (validate_literal_done h6).2⟩
  · subst hc
    refine ⟨?_, ?_, ?_, ?_, ?_, ?_⟩ <;> intro x hx <;> cases hx

end Libcron

namespace Libcron

/-- C1: for every input string on which parsing completes, the
expression's validity flag is true exactly when the string split into
six whitespace-separated tokens and every comma-separated part of every
token parsed into values within the field's limits; in particular the
boundary values one below First and one above Last (seconds 60,
hours 24 and the spec's example 25, months 13, day-of-week 7, day of
month 0 and 32, minutes 60) each make the whole expression invalid. -/
theorem claim_C1_validity_iff :
    (∀ (l : List Char) (c : CronData), parse l = .done c →
      (c.valid = true ↔ spec_valid l)) ∧
    created_invalid ("60 * * * * *") = true ∧
    created_invalid ("* 60 * * * *") = true ∧
    created_invalid ("* * 24 * * *") = true ∧
    created_invalid ("* * 25 * * *") = true ∧
    created_invalid ("* * * 0 * *") = true ∧
    created_invalid ("* * * 32 * *") = true ∧
    created_invalid ("* * * * 0 *") = true ∧
    created_invalid ("* * * * 13 *") = true ∧
    created_invalid ("* * * * * 7") = true :=
  ⟨fun _ _ h => parse_valid_iff h, by decide, by decide, by decide, by decide,
   by decide, by decide, by decide, by decide, by decide⟩

/-- The parsed form of the all-stars expression. -/
def starData : CronData :=
  ⟨Finset.Icc 0 59, Finset.Icc 0 59, Finset.Icc 0 23, Finset.Icc 1 31,
   Finset.Icc 1 12, Finset.Icc 0 6, true⟩

theorem claim_C1_validity_iff_witness :
    starData.valid = true ↔ spec_valid (("* * * * * *").toList) :=
  claim_C1_validity_iff.1 (("* * * * * *").toList) starData (by decide)

/-- C9: every parsing operation preserves the bounds invariant, and the
six sets of any completed parse (valid or not) lie within their field's
bounds. -/
theorem claim_C9_bounds_invariant :
    (∀ (k : FieldKind) (s : Finset Nat) (n : Nat),
      s ⊆ Finset.Icc k.first k.last →
      (add_number k s n).2 ⊆ Finset.Icc k.first k.last) ∧
    (∀ (k : FieldKind) (s : Finset Nat),
      s ⊆ Finset.Icc k.first k.last →
      add_full_range k s ⊆ Finset.Icc k.first k.last) ∧
    (∀ (k : FieldKind) (l : List Nat) (s : Finset Nat),
      s ⊆ Finset.Icc k.first k.last →
      (add_list k l s).2 ⊆ Finset.Icc k.first k.last) ∧
    (∀ (l : List Char) (c : CronData), parse l = .done c →
      c.seconds ⊆ Finset.Icc 0 59 ∧ c.minutes ⊆ Finset.Icc 0 59 ∧
      c.hours ⊆ Finset.Icc 0 23 ∧ c.day_of_month ⊆ Finset.Icc 1 31 ∧
      c.months ⊆ Finset.Icc 1 12 ∧ c.day_of_week ⊆ Finset.Icc 0 6) := by
  refine ⟨fun k s n h => add_number_subset n h, fun k s h => add_full_range_subset h,
    ?_, fun l c h => parse_done_bounds h⟩
  intro k l s h
  rw [add_list_eq l s h]
  exact union_filter_subset l h

theorem claim_C9_bounds_invariant_witness :
    starData.seconds ⊆ Finset.Icc 0 59 ∧ starData.minutes ⊆ Finset.Icc 0 59 ∧
    starData.hours ⊆ Finset.Icc 0 23 ∧ starData.day_of_month ⊆ Finset.Icc 1 31 ∧
    starData.months ⊆ Finset.Icc 1 12 ∧ starData.day_of_week ⊆ Finset.Icc 0 6 :=
  claim_C9_bounds_invariant.2.2.2 (("* * * * * *").toList) starData (by decide)

/-- C5: `add_full_range` adds exactly the field's complete bounded
range, and in any completed parse a field whose whole token is `*` ends
up with exactly the values First..Last: seconds and minutes 60 values,
hours 24, day of month 31, month 12, day of week 7. -/
theorem claim_C5_star_full_range :
    (∀ (k : FieldKind) (s : Finset Nat),
      add_full_range k s = s ∪ Finset.Icc k.first k.last) ∧
    (∀ (l : List Char) (c : CronData) (t1 t2 t3 t4 t5 t6 : List Char),
      parse l = .done c →
      wsTokens l = [t1, t2, t3, t4, t5, t6] →
      (t1 = ['*'] → c.seconds = Finset.Icc 0 59 ∧ c.seconds.card = 60) ∧
      (t2 = ['*'] → c.minutes = Finset.Icc 0 59 ∧ c.minutes.card = 60) ∧
      (t3 = ['*'] → c.hours = Finset.Icc 0 23 ∧ c.hours.card = 24) ∧
      (t4 = ['*'] → c.day_of_month = Finset.Icc 1 31 ∧ c.day_of_month.card = 31) ∧
      (t5 = ['*'] → c.months = Finset.Icc 1 12 ∧ c.months.card = 12) ∧
      (t6 = ['*'] → c.day_of_week = Finset.Icc 0 6 ∧ c.day_of_week.card = 7)) := by
  constructor
  · intro k s
    unfold add_full_range
    rw [range'_toFinset_Icc]
  · intro l c t1 t2 t3 t4 t5 t6 h hw
    rcases parse_done_cases h with
      ⟨u1, u2, u3, u4, u5, u6, p1, p2, p3, p4, p5, p6,
        heq, h1, h2, h3, h4, h5, h6, hc⟩ | ⟨hne, hc⟩
    · rw [hw] at heq
      injection heq with e1 heq
      injection heq with e2 heq
      injection heq with e3 heq
      injection heq with e4 heq
      injection heq with e5 heq
      injection heq with e6 heq
      subst e1; subst e2; subst e3; subst e4; subst e5; subst e6
      subst hc
      refine ⟨?_, ?_, ?_, ?_, ?_, ?_⟩
      · intro ht
        subst ht
        have e : validate_numeric secondsKind (['*']) = .done (true, Finset.Icc 0 59) := by
          decide
        have hp : PRes.done p1 = PRes.done ((true, Finset.Icc 0 59) : Bool × Finset Nat) :=
          h1.symm.trans e
        injection hp with hp
        subst hp
        refine ⟨rfl, ?_⟩
        show (Finset.Icc (0 : Nat) 59).card = 60
        decide
      · intro ht
        subst ht
        have e : validate_numeric minutesKind (['*']) = .done (true, Finset.Icc 0 59) := by
          decide
        have hp : PRes.done p2 = PRes.done ((true, Finset.Icc 0 59) : Bool × Finset Nat) :=
          h2.symm.trans e
        injection hp with hp
        subst hp
        refine ⟨rfl, ?_⟩
        show (Finset.Icc (0 : Nat) 59).card = 60
        decide
      · intro ht
        subst ht
        have e : validate_numeric hoursKind (['*']) = .done (true, Finset.Icc 0 23) := by
          decide
        have hp : PRes.done p3 = PRes.done ((true, Finset.Icc 0 23) : Bool × Finset Nat) :=
          h3.symm.trans e
        injection hp with hp
        subst hp
        refine ⟨rfl, ?_⟩
        show (Finset.Icc (0 : Nat) 23).card = 24
        decide
      · intro ht
        subst ht
        have e : validate_numeric dayOfMonthKind (['*']) = .done (true, Finset.Icc 1 31) := by
          decide
        have hp : PRes.done p4 = PRes.done ((true, Finset.Icc 1 31) : Bool × Finset Nat) :=
          h4.symm.trans e
        injection hp with hp
        subst hp
        refine ⟨rfl, ?_⟩
        show (Finset.Icc (1 : Nat) 31).card = 31
        decide
      · intro ht
        subst ht
        have e : validate_literal monthsKind month_names (['*']) =
            .done (true, Finset.Icc 1 12) := by
          decide
        have hp : PRes.done p5 = PRes.done ((true, Finset.Icc 1 12) : Bool × Finset Nat) :=
          h5.symm.trans e
        injection hp with hp
        subst hp
        refine ⟨rfl, ?_⟩
        show (Finset.Icc (1 : Nat) 12).card = 12
        decide
      · intro ht
        subst ht
        have e : validate_literal dayOfWeekKind day_names (['*']) =
            .done (true, Finset.Icc 0 6) := by
          decide
        have hp : PRes.done p6 = PRes.done ((true, Finset.Icc 0 6) : Bool × Finset Nat) :=
          h6.symm.trans e
        injection hp with hp
        subst hp
        refine ⟨rfl, ?_⟩
        show (Finset.Icc (0 : Nat) 6).card = 7
        decide
    · exact absurd hw (hne t1 t2 t3 t4 t5 t6)

/-- Field-set getters of a completed `create` (the `get_seconds` ..
`get_day_of_week` accessors), empty when parsing did not complete. -/
def secondsOf (s : String) : Finset Nat :=
  match create s with
  | .done c => c.seconds
  | _ => ∅

def hoursOf (s : String) : Finset Nat :=
  match create s with
  | .done c => c.hours
  | _ => ∅

def dayOfMonthOf (s : String) : Finset Nat :=
  match create s with
  | .done c => c.day_of_month
  | _ => ∅

def monthsOf (s : String) : Finset Nat :=
  match create s with
  | .done c => c.months
  | _ => ∅

def dayOfWeekOf (s : String) : Finset Nat :=
  match create s with
  | .done c => c.day_of_week
  | _ => ∅

theorem takeWhile_digits_append {a b : List Char} {sep : Char}
    (ha : a.all Char.isDigit = true) (hsep : Char.isDigit sep = false) :
    (a ++ sep :: b).takeWhile Char.isDigit = a := by
  induction a with
  | nil =>
    simp only [List.nil_append]
    exact List.takeWhile_cons_of_neg (by simp [hsep])
  | cons c cs ih =>
    simp only [List.all_cons, Bool.and_eq_true] at ha
    simp only [List.cons_append]
    rw [List.takeWhile_cons_of_pos ha.1, ih ha.2]

theorem takeWhile_self_append {l : List Char} :
    l.takeWhile Char.isDigit ++ l.drop (l.takeWhile Char.isDigit).length = l := by
  conv_rhs => rw [← List.take_append_drop ((l.takeWhile Char.isDigit).length) l]
  congr 1
  exact List.prefix_iff_eq_take.mp (List.takeWhile_prefix _)

/-- A successful shape split decomposes the part as digits, separator,
digits. -/
theorem splitShape2_shape {sep : Char} {p a b : List Char}
    (h : splitShape2 sep p = some (a, b)) :
    p = a ++ sep :: b ∧ a ≠ [] ∧ a.all Char.isDigit = true ∧
      b.all Char.isDigit = true := by
  have hdec := takeWhile_self_append (l := p)
  unfold splitShape2 at h
  split at h
  · cases h
  case h_2 c b2 heq =>
    split at h
    case isTrue hcond =>
      injection h with h
      have ha : p.takeWhile Char.isDigit = a := congrArg Prod.fst h
      have hb : b2 = b := congrArg Prod.snd h
      rw [ha] at hcond heq hdec
      rw [hb] at hcond heq
      simp only [Bool.and_eq_true, decide_eq_true_eq] at hcond
      obtain ⟨⟨⟨hc, hae⟩, _⟩, hbdig⟩ := hcond
      subst hc
      rw [heq] at hdec
      refine ⟨hdec.symm, ?_, ?_, hbdig⟩
      · intro hn
        rw [hn] at hae
        simp at hae
      · rw [← ha]
        exact List.all_eq_true.mpr (fun x hx => List.mem_takeWhile_imp hx)
    case isFalse hcond =>
      cases h

/-- A part that decomposes around a non-digit separator is neither `*`
nor a plain number. -/
theorem sep_part_ne_star {a b : List Char} {sep : Char} (ha : a ≠ []) :
    a ++ sep :: b ≠ ['*'] := by
  intro h
  have hlen := congrArg List.length h
  have hpos := List.length_pos.mpr ha
  simp only [List.length_append, List.length_cons, List.length_nil] at hlen
  omega

theorem sep_part_not_number {a b : List Char} {sep : Char}
    (hsep : Char.isDigit sep = false) :
    is_number (a ++ sep :: b) = false := by
  unfold is_number
  simp [List.all_append, hsep]

/-- The other shape probe fails: a part split around one separator has
no occurrence of the shape with a different separator right after its
digit prefix. -/
theorem splitShape2_other_sep {a b : List Char} {sep sep2 : Char}
    (ha : a.all Char.isDigit = true) (hsep : Char.isDigit sep = false)
    (hne : sep ≠ sep2) :
    splitShape2 sep2 (a ++ sep :: b) = none := by
  unfold splitShape2
  rw [takeWhile_digits_append ha hsep, List.drop_left]
  simp [hne]

/-- Everything `get_range` checked on a successful in-limits match. -/
theorem get_range_some_elim {k : FieldKind} {p : List Char} {lo hi : Nat}
    (h : get_range k p = .ok (some (lo, hi))) :
    ∃ a b, splitShape2 '-' p = some (a, b) ∧ stoi a = .ok lo ∧ stoi b = .ok hi ∧
      is_within_limits k lo hi = true := by
  unfold get_range at h
  split at h
  · cases h
  case h_2 a b heq =>
    split at h
    · cases h
    case h_2 lo2 hsa =>
      split at h
      · cases h
      case h_2 hi2 hsb =>
        split at h
        case isTrue hlim =>
          injection h with h
          injection h with h
          injection h with h1 h2
          subst h1
          subst h2
          exact ⟨a, b, heq, hsa, hsb, hlim⟩
        case isFalse hlim =>
          cases h

/-- Everything `get_step` checked on a successful match, including the
`uint8_t` narrowing of start and step. -/
theorem get_step_some_elim {k : FieldKind} {p : List Char} {st sp : Nat}
    (h : get_step k p = .ok (some (st, sp))) :
    ∃ a b rawStart rawStep, splitShape2 '/' p = some (a, b) ∧
      stoi a = .ok rawStart ∧ stoi b = .ok rawStep ∧
      st = rawStart % 256 ∧ sp = rawStep % 256 ∧
      is_within_limits k rawStart rawStart = true ∧ 0 < rawStep := by
  unfold get_step at h
  split at h
  · cases h
  case h_2 a b heq =>
    split at h
    · cases h
    case h_2 r1 hsa =>
      split at h
      · cases h
      case h_2 r2 hsb =>
        split at h
        case isTrue hok =>
          injection h with h
          injection h with h
          injection h with h1 h2
          subst h1
          subst h2
          simp only [Bool.and_eq_true, decide_eq_true_eq] at hok
          exact ⟨a, b, r1, r2, heq, hsa, hsb, rfl, rfl, hok.1, hok.2⟩
        case isFalse hok =>
          cases h

/-- `add_number` on an in-limits value always succeeds, whatever the
set's current contents. -/
theorem add_number_of_within {k : FieldKind} {n : Nat} (s : Finset Nat)
    (hw : within k n = true) :
    add_number k s n = (true, insert n s) := by
  unfold add_number
  rw [is_within_limits_single, hw]
  by_cases hm : n ∈ s
  · simp [hm, Finset.insert_eq_self.mpr hm]
  · simp [hm]

/-- The insertion loop over a list of in-limits values succeeds and
adds exactly those values. -/
theorem add_list_of_all_within {k : FieldKind} {l : List Nat}
    (h : ∀ v ∈ l, within k v = true) :
    ∀ s : Finset Nat, add_list k l s = (true, s ∪ l.toFinset) := by
  induction l with
  | nil => intro s; simp [add_list]
  | cons v vs ih =>
    intro s
    have hv := h v (List.mem_cons_self v vs)
    have hrest : ∀ x ∈ vs, within k x = true := fun x hx => h x (List.mem_cons_of_mem v hx)
    simp only [add_list, add_number_of_within s hv, ih hrest (insert v s), Bool.true_and,
      List.toFinset_cons]
    refine Prod.ext rfl ?_
    ext x
    simp only [Finset.mem_union, Finset.mem_insert, List.mem_toFinset]
    tauto

end Libcron

namespace Libcron

/-- C2: an in-bounds `low-high` part contributes exactly the interval
[low, high] when low <= high, and exactly [low, Last] together with
[First, high] when low > high (wraparound); hours `20-5` yields exactly
the ten values {20,21,22,23,0,1,2,3,4,5}; a range-shaped part with a
bound outside the field's limits fails the part and makes the
expression invalid. -/
theorem claim_C2_range_semantics :
    (∀ (k : FieldKind) (p : List Char) (lo hi : Nat) (r : Bool) (s : Finset Nat),
      get_range k p = .ok (some (lo, hi)) → lo ≤ hi →
      process_part k p (r, s) = .done (r, s ∪ Finset.Icc lo hi)) ∧
    (∀ (k : FieldKind) (p : List Char) (lo hi : Nat) (r : Bool) (s : Finset Nat),
      get_range k p = .ok (some (lo, hi)) → hi < lo →
      process_part k p (r, s) =
        .done (r, s ∪ (Finset.Icc lo k.last ∪ Finset.Icc k.first hi))) ∧
    (∀ (k : FieldKind) (p a b : List Char) (lo hi : Nat) (r : Bool) (s : Finset Nat),
      splitShape2 '-' p = some (a, b) → stoi a = .ok lo → stoi b = .ok hi →
      is_within_limits k lo hi = false →
      process_part k p (r, s) = .done (false, s)) ∧
    created_valid ("* * 20-5 * * *") = true ∧
    hoursOf ("* * 20-5 * * *") = Finset.Icc 0 5 ∪ Finset.Icc 20 23 ∧
    (hoursOf ("* * 20-5 * * *")).card = 10 ∧
    created_valid ("* * * 1-31 * *") = true ∧
    dayOfMonthOf ("* * * 1-31 * *") = Finset.Icc 1 31 ∧
    (dayOfMonthOf ("* * * 1-31 * *")).card = 31 ∧
    created_invalid ("* 0-60 * * * *") = true ∧
    created_invalid ("* * 0-25 * * *") = true := by
  refine ⟨?_, ?_, ?_, by decide, by decide, by decide, by decide, by decide,
    by decide, by decide, by decide⟩
  · intro k p lo hi r s hgr hle
    obtain ⟨a, b, hsp, hsa, hsb, hlim⟩ := get_range_some_elim hgr
    obtain ⟨hp, hane, hadig, hbdig⟩ := splitShape2_shape hsp
    have h1 : p ≠ ['*'] := hp ▸ sep_part_ne_star hane
    have h2 : is_number p = false := hp ▸ sep_part_not_number (by decide)
    rw [is_within_limits_iff] at hlim
    have hall : ∀ v ∈ List.range' lo (hi + 1 - lo), within k v = true :=
      fun v hv => within_of_mem_range' hlim.1.1 hlim.2.2 hv
    unfold process_part
    rw [if_neg h1, if_neg (by simp [h2]), hgr]
    dsimp only
    rw [if_pos hle]
    rw [add_list_of_all_within hall s]
    rw [Bool.and_true, range'_toFinset_Icc]
  · intro k p lo hi r s hgr hlt
    obtain ⟨a, b, hsp, hsa, hsb, hlim⟩ := get_range_some_elim hgr
    obtain ⟨hp, hane, hadig, hbdig⟩ := splitShape2_shape hsp
    have h1 : p ≠ ['*'] := hp ▸ sep_part_ne_star hane
    have h2 : is_number p = false := hp ▸ sep_part_not_number (by decide)
    rw [is_within_limits_iff] at hlim
    have hall1 : ∀ v ∈ List.range' lo (k.last + 1 - lo), within k v = true :=
      fun v hv => within_of_mem_range' hlim.1.1 (Nat.le_refl _) hv
    have hall2 : ∀ v ∈ List.range' k.first (hi + 1 - k.first), within k v = true :=
      fun v hv => within_of_mem_range' (Nat.le_refl _) hlim.2.2 hv
    unfold process_part
    rw [if_neg h1, if_neg (by simp [h2]), hgr]
    dsimp only
    rw [if_neg (by omega)]
    rw [add_list_of_all_within hall1 s]
    rw [add_list_of_all_within hall2 _]
    rw [Bool.and_true, Bool.and_true, range'_toFinset_Icc, range'_toFinset_Icc,
      Finset.union_assoc]
  · intro k p a b lo hi r s hsp hsa hsb hlim
    obtain ⟨hp, hane, hadig, hbdig⟩ := splitShape2_shape hsp
    have h1 : p ≠ ['*'] := hp ▸ sep_part_ne_star hane
    have h2 : is_number p = false := hp ▸ sep_part_not_number (by decide)
    have hgr : get_range k p = .ok none := by
      unfold get_range
      rw [hsp]
      dsimp only
      rw [hsa]
      dsimp only
      rw [hsb]
      dsimp only
      rw [if_neg (by simp [hlim])]
    have hother : splitShape2 '/' p = none := by
      rw [hp]
      exact splitShape2_other_sep hadig (by decide) (by decide)
    have hgs : get_step k p = .ok none := by
      unfold get_step
      rw [hother]
    unfold process_part
    rw [if_neg h1, if_neg (by simp [h2]), hgr]
    dsimp only
    rw [hgs]

theorem claim_C2_range_semantics_witness :
    process_part hoursKind (('2' :: '0' :: '-' :: '5' :: [])) (true, ∅) =
      .done (true, (∅ : Finset Nat) ∪
        (Finset.Icc 20 hoursKind.last ∪ Finset.Icc hoursKind.first 5)) :=
  claim_C2_range_semantics.2.1 hoursKind _ 20 5 true ∅ (by rfl) (by decide)

/-- The values the spec expects a `start/step` part to contribute: the
arithmetic progression from `start` in strides of `step`, while at most
`Last`. -/
def step_values (k : FieldKind) (st sp : Nat) : List Nat :=
  if st ≤ k.last then (List.range ((k.last - st) / sp + 1)).map (fun i => st + i * sp)
  else []

theorem step_values_cons {k : FieldKind} {st sp : Nat} (hsp : 0 < sp)
    (hst : st ≤ k.last) :
    step_values k st sp = st :: step_values k (st + sp) sp := by
  unfold step_values
  rw [if_pos hst]
  by_cases h2 : st + sp ≤ k.last
  · rw [if_pos h2]
    have hle : sp ≤ k.last - st := by omega
    have hsub : k.last - st - sp = k.last - (st + sp) := by omega
    have hdiv : (k.last - st) / sp + 1 = ((k.last - (st + sp)) / sp + 1) + 1 := by
      rw [Nat.div_eq_sub_div hsp hle, hsub]
    rw [hdiv, List.range_succ_eq_map, List.map_cons, List.map_map]
    congr 1
    · simp
    · apply List.map_congr_left
      intro i _
      simp only [Function.comp_apply, Nat.succ_eq_add_one]
      ring
  · rw [if_neg h2]
    have hdiv : (k.last - st) / sp = 0 := Nat.div_eq_of_lt (by omega)
    rw [hdiv]
    rw [show List.range 1 = [0] from rfl]
    simp

theorem mem_step_values_iff {k : FieldKind} {st sp x : Nat} (hsp : 0 < sp) :
    x ∈ step_values k st sp ↔
      st ≤ k.last ∧ ∃ i, x = st + i * sp ∧ x ≤ k.last := by
  unfold step_values
  by_cases hst : st ≤ k.last
  · rw [if_pos hst]
    simp only [List.mem_map, List.mem_range, hst, true_and]
    constructor
    · rintro ⟨i, hi, rfl⟩
      refine ⟨i, rfl, ?_⟩
      have : i ≤ (k.last - st) / sp := by omega
      have := (Nat.le_div_iff_mul_le hsp).mp this
      omega
    · rintro ⟨i, rfl, hle⟩
      refine ⟨i, ?_, rfl⟩
      have : i * sp ≤ k.last - st := by omega
      have := (Nat.le_div_iff_mul_le hsp).mpr this
      omega
  · rw [if_neg hst]
    simp only [List.not_mem_nil, false_iff]
    intro h
    exact hst (h.1)

/-- When the `uint8_t` accumulator cannot wrap (`step + Last` at most
255), the step loop terminates within the provided fuel and adds
exactly the arithmetic progression. -/
theorem step_loop_nowrap {k : FieldKind} {sp : Nat} (hsp : 0 < sp)
    (hw : sp + k.last ≤ 255) :
    ∀ (fuel v : Nat) (res : Bool) (s : Finset Nat),
      k.first ≤ v → k.last + 2 ≤ fuel + v → 1 ≤ fuel →
      step_loop k fuel res s v sp = some (res, s ∪ (step_values k v sp).toFinset) := by
  intro fuel
  induction fuel with
  | zero =>
    intro v res s _ _ hcontra
    exact absurd hcontra (by omega)
  | succ fuel ih =>
    intro v res s hvf hmeasure _
    by_cases hv : v ≤ k.last
    · have hwv : within k v = true := within_iff.mpr ⟨hvf, hv⟩
      rw [step_loop, if_pos hv]
      dsimp only
      rw [add_number_of_within s hwv]
      dsimp only
      rw [Bool.and_true, Nat.mod_eq_of_lt (by omega)]
      rw [ih (v + sp) res (insert v s) (by omega) (by omega) (by omega)]
      rw [step_values_cons hsp hv, List.toFinset_cons]
      have hset : insert v s ∪ (step_values k (v + sp) sp).toFinset =
          s ∪ insert v (step_values k (v + sp) sp).toFinset := by
        ext x
        simp only [Finset.mem_union, Finset.mem_insert, List.mem_toFinset]
        tauto
      rw [hset]
    · rw [step_loop, if_neg hv]
      have : step_values k v sp = [] := by
        unfold step_values
        rw [if_neg hv]
      rw [this]
      simp

end Libcron

namespace Libcron

/-- C3 (amended): a `start/step` part with in-bounds start, strictly
positive step, and step small enough that the 8-bit accumulator cannot
wrap past 255 (step + Last at most 255) contributes exactly the values
start, start + step, start + 2 * step, ... while at most Last, with no
wraparound; `JAN/2` on months yields exactly {1,3,5,7,9,11}; a zero
step or an out-of-bounds start makes the expression invalid.  (With a
larger step the `uint8_t` increment wraps modulo 256 and can add
further values; see the counterexample.) -/
theorem claim_C3_step_semantics :
    (∀ (k : FieldKind) (p : List Char) (st sp : Nat) (r : Bool) (s : Finset Nat),
      get_step k p = .ok (some (st, sp)) → 0 < sp → sp + k.last ≤ 255 →
      process_part k p (r, s) = .done (r, s ∪ (step_values k st sp).toFinset)) ∧
    (∀ (k : FieldKind) (st sp x : Nat), 0 < sp →
      (x ∈ step_values k st sp ↔ st ≤ k.last ∧ ∃ i, x = st + i * sp ∧ x ≤ k.last)) ∧
    created_valid ("* * * * JAN/2 *") = true ∧
    monthsOf ("* * * * JAN/2 *") = ({1, 3, 5, 7, 9, 11} : Finset Nat) ∧
    created_invalid ("1/0 * * * * *") = true ∧
    created_invalid ("60/2 * * * * *") = true := by
  refine ⟨?_, fun k st sp x hsp => mem_step_values_iff hsp, by decide, by decide,
    by decide, by decide⟩
  intro k p st sp r s hgs hsp hw
  obtain ⟨a, b, rawStart, rawStep, hshape, hsa, hsb, hsteq, hspeq, hlim, hpos⟩ :=
    get_step_some_elim hgs
  obtain ⟨hp, hane, hadig, hbdig⟩ := splitShape2_shape hshape
  have h1 : p ≠ ['*'] := hp ▸ sep_part_ne_star hane
  have h2 : is_number p = false := hp ▸ sep_part_not_number (by decide)
  rw [is_within_limits_iff] at hlim
  have hraw : rawStart ≤ k.last := hlim.1.2
  have hst : st = rawStart := by
    rw [hsteq]
    exact Nat.mod_eq_of_lt (by omega)
  have hstf : k.first ≤ st := hst ▸ hlim.1.1
  have hstl : st ≤ k.last := hst ▸ hraw
  have hother : splitShape2 '-' p = none := by
    rw [hp]
    exact splitShape2_other_sep hadig (by decide) (by decide)
  have hgr : get_range k p = .ok none := by
    unfold get_range
    rw [hother]
  unfold process_part
  rw [if_neg h1, if_neg (by simp [h2]), hgr]
  dsimp only
  rw [hgs]
  dsimp only
  rw [step_loop_nowrap hsp hw stepFuel st true s hstf
    (by simp only [stepFuel]; omega) (by simp only [stepFuel]; omega)]
  dsimp only
  rw [Bool.and_true]

theorem claim_C3_step_semantics_witness :
    process_part monthsKind (('1' :: '/' :: '2' :: [])) (true, ∅) =
      .done (true, (∅ : Finset Nat) ∪ (step_values monthsKind 1 2).toFinset) :=
  claim_C3_step_semantics.1 monthsKind _ 1 2 true ∅ (by rfl) (by decide) (by decide)

/-- C3 counterexample: the claim as stated fails on the code.  The
hours part `20/250` has an in-bounds start and a strictly positive
step, so the claim says the hours set gains exactly {20} (20 + 250
exceeds Last = 23).  But the `uint8_t` accumulator wraps modulo 256 and
the code accepts the expression as valid with hours {2, 8, 14, 20}. -/
theorem claim_C3_counterexample :
    created_valid ("* * 20/250 * * *") = true ∧
    hoursOf ("* * 20/250 * * *") = ({2, 8, 14, 20} : Finset Nat) ∧
    ¬ hoursOf ("* * 20/250 * * *") = ({20} : Finset Nat) :=
  ⟨by decide, by decide, by decide⟩

/-- C10: the claim that the step loop always terminates is false.  The
token `0/256` passes `get_step` (the raw step 256 is strictly positive
as an `int`), but the `uint8_t` narrowing turns the step into 0, the
loop counter never changes, and the loop never exceeds Last: the C++
loop runs forever (every fuel bound is exhausted), and the whole parse
of `0/256 * * * * *` diverges. -/
theorem claim_C10_nonterminating_step :
    get_step secondsKind (('0' :: '/' :: '2' :: '5' :: '6' :: [])) = .ok (some (0, 0)) ∧
    (∀ (fuel : Nat) (res : Bool) (s : Finset Nat),
      step_loop secondsKind fuel res s 0 0 = none) ∧
    parse (("0/256 * * * * *").toList) = .hang := by
  refine ⟨by rfl, ?_, by decide⟩
  intro fuel
  induction fuel with
  | zero => intro res s; rfl
  | succ fuel ih =>
    intro res s
    rw [step_loop, if_pos (by decide)]
    exact ih _ _

theorem claim_C10_nonterminating_step_witness :
    step_loop secondsKind 300 true ∅ 0 0 = none :=
  claim_C10_nonterminating_step.2.1 300 true ∅

theorem lowerc_of_not_letter {c : Char} (h : is_letter c = false) : lowerc c = c := by
  unfold is_letter at h
  rw [Bool.or_eq_false_iff] at h
  obtain ⟨h1, _⟩ := h
  rw [Bool.and_eq_false_iff] at h1
  unfold lowerc
  rw [if_neg]
  rintro ⟨ha, hb⟩
  rcases h1 with h1 | h1 <;> simp only [decide_eq_false_iff_not] at h1
  · exact h1 ha
  · exact h1 hb

theorem ci_starts_false_of_not_letter {pat l : List Char} {c : Char} (hpat : pat ≠ [])
    (hhead : is_letter (pat.headD 'a') = true) (hc : is_letter c = false) :
    ci_starts pat (c :: l) = false := by
  cases pat with
  | nil => exact absurd rfl hpat
  | cons p ps =>
    unfold ci_starts
    rw [decide_eq_false_iff_not]
    intro heq
    rw [List.length_cons, List.take_succ_cons, List.map_cons] at heq
    injection heq with h1 _
    rw [lowerc_of_not_letter hc] at h1
    subst h1
    rw [List.headD_cons] at hhead
    rw [hhead] at hc
    cases hc

/-- The case-insensitive replacement never touches an input without
letters (of which the recognised names consist), however much fuel. -/
theorem replaceCI_no_letters {pat rep : List Char} (hpat : pat ≠ [])
    (hhead : is_letter (pat.headD 'a') = true) :
    ∀ (fuel : Nat) (l : List Char), l.all (fun c => !is_letter c) = true →
      replaceCI fuel pat rep l = l := by
  intro fuel
  induction fuel with
  | zero => intro l _; rfl
  | succ fuel ih =>
    intro l hall
    cases l with
    | nil => rfl
    | cons c rest =>
      simp only [List.all_cons, Bool.and_eq_true, Bool.not_eq_true'] at hall
      rw [replaceCI, if_neg (by
        rw [ci_starts_false_of_not_letter hpat hhead hall.1]
        exact Bool.false_ne_true)]
      rw [ih rest hall.2]

/-- Substituting the names leaves a letterless part untouched. -/
theorem subst_names_no_letters {p : List Char}
    (hp : p.all (fun c => !is_letter c) = true) :
    ∀ (names : List (List Char)) (v : Nat),
      (∀ n ∈ names, n ≠ [] ∧ is_letter (n.headD 'a') = true) →
      subst_names names v [p] = [p] := by
  intro names
  induction names with
  | nil => intro v _; rfl
  | cons n ns ih =>
    intro v hnames
    obtain ⟨hne, hhead⟩ := hnames n (List.mem_cons_self n ns)
    rw [subst_names, List.map_cons, List.map_nil,
      replaceCI_no_letters hne hhead p.length p hp]
    exact ih (v + 1) (fun m hm => hnames m (List.mem_cons_of_mem n hm))

/-- C4: on the month and day-of-week fields the recognised
case-insensitive three-letter names are substituted by their numeric
ordinal, names being tried in ascending ordinal order with the running
value starting at the field's First; the substitution cannot corrupt a
part without letters (in particular an already-numeric part); the
substituted parts then go through the ordinary numeric shapes; and
`JAN-MAR,DEC` on months parses to exactly {1,2,3,12}, excluding
4..11. -/
theorem claim_C4_literal_names :
    (∀ (names : List (List Char)) (v : Nat) (p : List Char),
      (∀ n ∈ names, n ≠ [] ∧ is_letter (n.headD 'a') = true) →
      p.all (fun c => !is_letter c) = true →
      subst_names names v [p] = [p]) ∧
    (∀ n ∈ month_names, n ≠ [] ∧ is_letter (n.headD 'a') = true) ∧
    (∀ n ∈ day_names, n ≠ [] ∧ is_letter (n.headD 'a') = true) ∧
    (∀ (k : FieldKind) (names : List (List Char)) (tok : List Char),
      validate_literal k names tok =
        process_parts k (subst_names names k.first (splitChar ',' tok)) (true, ∅)) ∧
    subst_names month_names 1 [(("JAN-MAR").toList), (("DEC").toList)] =
      [(("1-3").toList), (("12").toList)] ∧
    created_valid ("* * * * JAN-MAR,DEC *") = true ∧
    monthsOf ("* * * * JAN-MAR,DEC *") = ({1, 2, 3, 12} : Finset Nat) ∧
    monthsOf ("* * * * JAN-MAR,DEC *") ∩ Finset.Icc 4 11 = ∅ :=
  ⟨fun names v p hn hp => subst_names_no_letters hp names v hn,
   by decide, by decide, fun _ _ _ => rfl, by decide, by decide, by decide, by decide⟩

theorem claim_C4_literal_names_witness :
    subst_names month_names 1 [(("1-3").toList)] = [(("1-3").toList)] :=
  claim_C4_literal_names.1 month_names 1 (("1-3").toList) (by decide) (by decide)

/-- C6: the claim that parsing never throws is false on the code.  A
plain-integer token whose digits denote a value above the 32-bit `int`
maximum passes `is_number`, and the unguarded `std::stoi` call in
`process_parts` throws `std::out_of_range`, which nothing catches: the
embedded parser's error branch is reached for
`2147483648 * * * * *`. -/
theorem claim_C6_overflow_throws :
    is_number (("2147483648").toList) = true ∧
    stoi (("2147483648").toList) = .error () ∧
    parse (("2147483648 * * * * *").toList) = .thrown ∧
    create ("2147483648 * * * * *") = .thrown :=
  ⟨by decide, by rfl, by decide, by decide⟩

theorem find_first_ge {p : Nat → Bool} :
    ∀ (fuel t r : Nat), find_first p t fuel = some r → t ≤ r := by
  intro fuel
  induction fuel with
  | zero =>
    intro t r h
    cases h
  | succ fuel ih =>
    intro t r h
    rw [find_first] at h
    by_cases hp : p t = true
    · rw [if_pos hp] at h
      injection h with h
      omega
    · rw [if_neg hp] at h
      have := ih (t + 1) r h
      omega

/-- Any occurrence the calculator returns is strictly after the start
(the search begins one second later). -/
theorem calculate_from_gt {c : CronData} {fromT r : Nat}
    (h : calculate_from c fromT = some r) : fromT < r := by
  unfold calculate_from at h
  split at h
  · have := find_first_ge horizon (fromT + 1) r h
    omega
  · cases h

/-- The parsed form of the top-of-every-hour schedule. -/
def hourlyData : CronData :=
  ⟨{0}, {0}, Finset.Icc 0 23, Finset.Icc 1 31, Finset.Icc 1 12, Finset.Icc 0 6, true⟩

/-- C7: the schedule `0 0 * * * *` computed from 2010-01-01T00:00:00
(instant 1262304000) yields 2010-01-01T01:00:00 (instant 1262307600),
and in general the computed occurrence is strictly greater than the
starting instant, so a start that itself satisfies the schedule is
excluded. -/
theorem claim_C7_calculate_from :
    parse (("0 0 * * * *").toList) = .done hourlyData ∧
    to_calendar_time 1262304000 = ⟨2010, 1, 1, 0, 0, 0⟩ ∧
    calculate_from hourlyData 1262304000 = some 1262307600 ∧
    to_calendar_time 1262307600 = ⟨2010, 1, 1, 1, 0, 0⟩ ∧
    (∀ (c : CronData) (fromT r : Nat), calculate_from c fromT = some r → fromT < r) :=
  ⟨by decide, by decide, by decide, by decide, fun _ _ _ h => calculate_from_gt h⟩

theorem claim_C7_calculate_from_witness : (1262304000 : Nat) < 1262307600 :=
  claim_C7_calculate_from.2.2.2.2 hourlyData 1262304000 1262307600 (by decide)

/-- A task list for the scheduler scenario of the tests: two tasks with
cached next occurrences 3 and 5 seconds out. -/
def emptyData : CronData := ⟨∅, ∅, ∅, ∅, ∅, ∅, false⟩

def task3 : Task := ⟨1, emptyData, some 3⟩

def task5 : Task := ⟨2, emptyData, some 5⟩

theorem mem_foldl_orderedInsert {l : List Task} :
    ∀ (acc : List Task) (t : Task),
      (t ∈ l.foldl (fun a x => List.orderedInsert key_le x a) acc ↔ t ∈ acc ∨ t ∈ l) := by
  induction l with
  | nil => intro acc t; simp
  | cons x xs ih =>
    intro acc t
    rw [List.foldl_cons, ih]
    rw [List.mem_orderedInsert]
    constructor
    · rintro ((h | h) | h)
      · exact Or.inr (by simp [h])
      · exact Or.inl h
      · exact Or.inr (List.mem_cons_of_mem x h)
    · rintro (h | h)
      · exact Or.inl (Or.inr h)
      · rcases List.mem_cons.mp h with h | h
        · exact Or.inl (Or.inl h)
        · exact Or.inr h

theorem sorted_foldl_orderedInsert {l : List Task} :
    ∀ (acc : List Task), List.Sorted key_le acc →
      List.Sorted key_le (l.foldl (fun a x => List.orderedInsert key_le x a) acc) := by
  induction l with
  | nil => intro acc h; exact h
  | cons x xs ih =>
    intro acc h
    rw [List.foldl_cons]
    exact ih _ (List.Sorted.orderedInsert x acc h)

/-- C8: for a collection sorted by cached next occurrence, one
`execute_due` call fires exactly the tasks whose next occurrence is at
or before the reference time, in ascending next-occurrence order,
exactly once each (the fired identifiers are those of the due tasks in
sorted order), returns the number fired, recomputes each fired task's
next occurrence strictly after the reference time (or to "no future
occurrence"), leaves every task in the new collection not due, keeps
the collection sorted, and an immediately repeated call with the same
reference time fires nothing. -/
theorem claim_C8_execute_due :
    ∀ (ref : Nat) (ts : List Task), List.Sorted key_le ts →
      ((execute_due ref ts).1 = (ts.filter (is_due ref)).length) ∧
      ((execute_due ref ts).2.1 = (ts.filter (is_due ref)).map Task.ident) ∧
      List.Sorted key_le (ts.filter (is_due ref)) ∧
      (∀ t ∈ (execute_due ref ts).2.2, is_due ref t = false) ∧
      ((execute_due ref (execute_due ref ts).2.2).1 = 0) ∧
      ((execute_due ref (execute_due ref ts).2.2).2.1 = []) ∧
      List.Sorted key_le (execute_due ref ts).2.2 ∧
      (∀ t ∈ ts.filter (is_due ref),
        (recompute ref t).next = none ∨
          ∃ n, (recompute ref t).next = some n ∧ ref < n) := by
  intro ref ts hs
  have hnotdue : ∀ t ∈ (execute_due ref ts).2.2, is_due ref t = false := by
    intro t ht
    unfold execute_due at ht
    rw [mem_foldl_orderedInsert] at ht
    rcases ht with ht | ht
    · have hmem := List.of_mem_filter ht
      simp only [Bool.not_eq_true'] at hmem
      exact hmem
    · obtain ⟨u, hu, rfl⟩ := List.mem_map.mp ht
      unfold recompute is_due
      cases hcalc : calculate_from u.sched ref with
      | none => rfl
      | some n =>
        have := calculate_from_gt hcalc
        simp only [decide_eq_false_iff_not]
        omega
  have hfilter_nil : (execute_due ref ts).2.2.filter (is_due ref) = [] :=
    List.filter_eq_nil_iff.mpr (fun t ht => by rw [hnotdue t ht]; exact Bool.false_ne_true)
  refine ⟨rfl, rfl, ?_, hnotdue, ?_, ?_, ?_, ?_⟩
  · exact List.Pairwise.sublist (List.filter_sublist ts) hs
  · show ((execute_due ref ts).2.2.filter (is_due ref)).length = 0
    rw [hfilter_nil]
    rfl
  · show ((execute_due ref ts).2.2.filter (is_due ref)).map Task.ident = []
    rw [hfilter_nil]
    rfl
  · exact sorted_foldl_orderedInsert _ (List.Pairwise.sublist (List.filter_sublist ts) hs)
  · intro t ht
    unfold recompute
    cases hcalc : calculate_from t.sched ref with
    | none => exact Or.inl rfl
    | some n => exact Or.inr ⟨n, rfl, calculate_from_gt hcalc⟩

theorem claim_C8_execute_due_witness :
    (execute_due 3 ([task3, task5])).1 = (([task3, task5]).filter (is_due 3)).length :=
  (claim_C8_execute_due 3 ([task3, task5]) (by decide)).1

theorem claim_C5_star_full_range_witness :
    (starData.seconds = Finset.Icc 0 59 ∧ starData.seconds.card = 60) ∧
    (starData.minutes = Finset.Icc 0 59 ∧ starData.minutes.card = 60) ∧
    (starData.hours = Finset.Icc 0 23 ∧ starData.hours.card = 24) ∧
    (starData.day_of_month = Finset.Icc 1 31 ∧ starData.day_of_month.card = 31) ∧
    (starData.months = Finset.Icc 1 12 ∧ starData.months.card = 12) ∧
    (starData.day_of_week = Finset.Icc 0 6 ∧ starData.day_of_week.card = 7) := by
  have h := claim_C5_star_full_range.2 (("* * * * * *").toList) starData
    (['*']) (['*']) (['*']) (['*']) (['*']) (['*']) (by decide) (by decide)
  exact ⟨h.1 rfl, h.2.1 rfl, h.2.2.1 rfl, h.2.2.2.1 rfl, h.2.2.2.2.1 rfl, h.2.2.2.2.2 rfl⟩

end Libcron
